import Mathlib

/-!
Verification of the invoice/SMS reconciliation program (src/app.py).

The program sends an invoice text and a transaction SMS to an external
text-generation collaborator together with a fixed rubric prompt, then
recovers a match score 0-4 from the collaborator's free-text answer:

* `match_invoice` (app.py lines 14-107): calls the collaborator, strips the
  response (`text = resp.text.strip()`, line 89), extracts the score with
  `re.search(r"FINAL SCORE:\s*([0-4])", text, re.IGNORECASE)` (lines 92-94),
  else falls back to scanning the lines of `text` in reverse for a line
  containing one of "score"/"final"/"result" (case-insensitively) that holds
  a digit `[0-4]` (lines 96-105), else defaults to 0; it returns
  `(score, text)` (line 107).
* `process_and_display` (lines 109-118): validates that both inputs are
  non-empty after `.strip()`, otherwise returns
  `(0, "Please provide both an invoice text and SMS text.")`; wraps the
  collaborator call in `try/except` and returns
  `(0, "Error processing: " + str(e))` on any exception.

The embedding works on `List Char`.  Python's `str.strip()`, `str.lower()`
and the regex class `\s` are modelled over the six ASCII whitespace
characters and ASCII case conversion (the repository only handles such
text).  The external collaborator is an explicit parameter of type
`String → String → Except String String`: `Except.ok` is a returned
narrative, `Except.error` a raised exception caught by the `try/except`.
-/

/-- Python `\s` / `str.strip` whitespace over ASCII:
space, tab, newline, carriage return, vertical tab, form feed. -/
def isWS (c : Char) : Bool :=
  c == ' ' || c == '\t' || c == '\n' || c == '\r' || c == '\x0b' || c == '\x0c'

/-- ASCII case folding of a single character, as Python `str.lower` acts on
the ASCII range. -/
def lowerChar (c : Char) : Char :=
  if 'A' ≤ c ∧ c ≤ 'Z' then Char.ofNat (c.toNat + 32) else c

/-- Python `str.lower` over the character list. -/
def lowerStr (cs : List Char) : List Char := cs.map lowerChar

/-- The regex character class `[0-4]` (code points of '0' to '4'). -/
def isDigit04 (c : Char) : Bool := 48 ≤ c.toNat && c.toNat ≤ 52

/-- Python `int(...)` applied to a single digit character. -/
def digitVal (c : Char) : Nat := c.toNat - 48

/-- Python `str.strip()`: drop leading whitespace, then drop trailing
whitespace (via reversal). -/
def pyStrip (cs : List Char) : List Char :=
  (List.dropWhile isWS (List.dropWhile isWS cs).reverse).reverse

/-- Python `text.split('\n')`: every newline separates, empty pieces kept. -/
def splitNL : List Char → List (List Char)
  | [] => [[]]
  | c :: cs =>
    if c = '\n' then [] :: splitNL cs
    else
      match splitNL cs with
      | [] => [[c]]
      | l :: ls => (c :: l) :: ls

/-- Join two line lists of adjacent texts: the left part's last line is glued
to the right part's first line (structure lemma machinery for `splitNL` under
append). -/
def glue : List (List Char) → List (List Char) → List (List Char)
  | [], bs => bs
  | [a], [] => [a]
  | [a], hb :: tb => (a ++ hb) :: tb
  | a :: b :: rest, bs => a :: glue (b :: rest) bs

/-- Exact-match test that `p` begins the list `s` (used for Python `in`). -/
def matchesAt : List Char → List Char → Bool
  | [], _ => true
  | _ :: _, [] => false
  | p :: ps, c :: cs => p == c && matchesAt ps cs

/-- Python substring containment `p in s` on character lists. -/
def containsSub (p : List Char) : List Char → Bool
  | [] => matchesAt p []
  | c :: cs => matchesAt p (c :: cs) || containsSub p cs

/-- Line test of app.py line 99:
`any(keyword in line.lower() for keyword in ['score', 'final', 'result'])`. -/
def hasKeyword (line : List Char) : Bool :=
  containsSub "score".data (lowerStr line) ||
  containsSub "final".data (lowerStr line) ||
  containsSub "result".data (lowerStr line)

/-- Body of one iteration of the fallback loop (app.py lines 99-103): if the
line holds a keyword, `re.search(r"[0-4]", line)` gives its first digit 0-4
as the score; otherwise the loop continues (`none`). -/
def lineScore (line : List Char) : Option Nat :=
  if hasKeyword line then (List.find? isDigit04 line).map digitVal else none

/-- The fallback `for ... break / else` of app.py lines 97-105, applied to the
already-reversed list of lines: the first line yielding a score wins, and the
`for`-`else` default is 0. -/
def fallbackScan (ls : List (List Char)) : Nat :=
  (List.findSome? lineScore ls).getD 0

/-- The literal regex pattern "FINAL SCORE:" of app.py line 92. -/
def fsPat : List Char := ['F', 'I', 'N', 'A', 'L', ' ', 'S', 'C', 'O', 'R', 'E', ':']

/-- Character comparison under `re.IGNORECASE`. -/
def ciEq (p c : Char) : Bool := lowerChar p == lowerChar c

/-- Match the literal pattern `ps` case-insensitively at the head of the text,
returning the remaining text on success. -/
def dropCI : List Char → List Char → Option (List Char)
  | [], cs => some cs
  | _ :: _, [] => none
  | p :: ps, c :: cs => if ciEq p c then dropCI ps cs else none

/-- Attempt of the regex `FINAL SCORE:\s*([0-4])` (re.IGNORECASE) at the head
of the text: the literal pattern, then greedy `\s*`, then a digit `[0-4]`
(backtracking into `\s*` cannot help since no digit is whitespace). -/
def finalScoreAt (cs : List Char) : Option Char :=
  match dropCI fsPat cs with
  | none => none
  | some rest =>
    match List.dropWhile isWS rest with
    | [] => none
    | c :: _ => if isDigit04 c then some c else none

/-- `re.search` of the pattern: try every position left to right and return
the first (leftmost) match's captured digit. -/
def searchFS : List Char → Option Char
  | [] => none
  | c :: cs =>
    match finalScoreAt (c :: cs) with
    | some d => some d
    | none => searchFS cs

/-- Score extraction of app.py lines 91-105 on the stripped text: primary
regex search, else the reverse-order fallback scan over the text's lines. -/
def parseScore (text : List Char) : Nat :=
  match searchFS text with
  | some c => digitVal c
  | none => fallbackScan (splitNL text).reverse

/-- The Response Parser, app.py lines 89-107: strip the narrative
(`text = resp.text.strip()`), extract the score, return `(score, text)`. -/
def parseNarrative (narr : String) : Nat × String :=
  (parseScore (pyStrip narr.data), String.mk (pyStrip narr.data))

/-- app.py `match_invoice` (lines 14-107) with the external collaborator made
explicit: call it on the two documents, then parse its narrative answer.
`Except.error` models an exception raised by the call. -/
def match_invoice (generate : String → String → Except String String)
    (image_text sms_text : String) : Except String (Nat × String) :=
  match generate image_text sms_text with
  | Except.error e => Except.error e
  | Except.ok t => Except.ok (parseNarrative t)

/-- app.py `process_and_display` (lines 109-118): empty/whitespace inputs
short-circuit with the validation message; otherwise the collaborator call
runs under `try/except`, any exception `e` yielding
`(0, "Error processing: " + str(e))`. -/
def process_and_display (generate : String → String → Except String String)
    (invoice_text sms_text : String) : Nat × String :=
  if pyStrip invoice_text.data = [] ∨ pyStrip sms_text.data = [] then
    (0, "Please provide both an invoice text and SMS text.")
  else
    match match_invoice generate invoice_text sms_text with
    | Except.ok r => r
    | Except.error e => (0, "Error processing: " ++ e)

/-!
The Scoring Rule Engine.  In src/app.py the scoring rubric exists only as
natural-language text inside the prompt string (lines 42-49); the scoring
decision itself is delegated to the external collaborator.  The definitions
below therefore model the engine from the spec (§3, §4.1), whose rubric
reproduces the prompt's tiers verbatim.
-/

/-- Modelled from the spec: `FieldSet` (spec §3) — the normalized fields
extracted from one document; every field may be absent.  The source holds no
such data type (extraction happens inside the external collaborator), so the
shape follows the spec's data model. -/
structure FieldSet where
  amount : Option ℚ
  date : Option Nat
  party_name : Option String
  identifiers : List String

/-- Modelled from the spec: `ComparisonResult` (spec §3) — the four match
flags plus the resulting score. -/
structure ComparisonResult where
  amount_match : Bool
  date_match : Bool
  name_match : Bool
  identifier_match : Bool
  score : Nat

/-- Split a character list into maximal whitespace-free words (accumulator
holds the current word reversed). -/
def wordsAux : List Char → List Char → List (List Char)
  | [], cur => if cur = [] then [] else [cur.reverse]
  | c :: cs, cur =>
    if isWS c then
      if cur = [] then wordsAux cs [] else cur.reverse :: wordsAux cs []
    else wordsAux cs (c :: cur)

/-- Modelled from the spec: name normalization for `name_match` (spec §4.1) —
case-insensitive, whitespace-collapsed comparison, i.e. the list of
lower-cased words. -/
def normName (s : String) : List (List Char) := wordsAux (lowerStr s.data) []

/-- Modelled from the spec: `amount_match` (spec §4.1) — both amounts present
and numerically equal; absence on either side counts as non-match. -/
def amountMatch (invoice sms : FieldSet) : Bool :=
  match invoice.amount, sms.amount with
  | some a, some b => decide (a = b)
  | _, _ => false

/-- Modelled from the spec: `date_match` (spec §4.1) — both dates present and
the same calendar day. -/
def dateMatch (invoice sms : FieldSet) : Bool :=
  match invoice.date, sms.date with
  | some a, some b => decide (a = b)
  | _, _ => false

/-- Modelled from the spec: `name_match` (spec §4.1) — both names present and
equal under case-insensitive, whitespace-collapsed comparison. -/
def nameMatch (invoice sms : FieldSet) : Bool :=
  match invoice.party_name, sms.party_name with
  | some a, some b => decide (normName a = normName b)
  | _, _ => false

/-- Modelled from the spec: `identifier_match` (spec §4.1) — the two
identifier sets intersect after case-insensitive normalization. -/
def identifierMatch (invoice sms : FieldSet) : Bool :=
  invoice.identifiers.any fun x =>
    sms.identifiers.any fun y => lowerStr x.data == lowerStr y.data

/-- Modelled from the spec: the ordered score tiers of the rubric (spec §4.1,
prompt text of app.py lines 42-49): a higher tier requires all lower-tier
conditions, so the tiers are tested from the top down. -/
def ruleScore (a d n i : Bool) : Nat :=
  if a && d && n && i then 4
  else if a && d && n then 3
  else if a && (d || n) then 2
  else if a then 1
  else 0

/-- Modelled from the spec: the Scoring Rule Engine's
`score(invoice, sms) -> ComparisonResult` (spec §4.1). -/
def scoreFieldSets (invoice sms : FieldSet) : ComparisonResult :=
  { amount_match := amountMatch invoice sms
    date_match := dateMatch invoice sms
    name_match := nameMatch invoice sms
    identifier_match := identifierMatch invoice sms
    score := ruleScore (amountMatch invoice sms) (dateMatch invoice sms)
      (nameMatch invoice sms) (identifierMatch invoice sms) }

/-!
Spec-side formulations of the fallback extraction (spec §4.2), written from
the spec's words rather than from the code, for comparison with the code's
behaviour.  The spec describes the fallback as: scan the narrative's lines
in reverse order; for each line containing any of the tokens
"score"/"final"/"result" (case-insensitive), search that line for the first
*standalone* digit in range 0-4; the first such match wins, else 0.
-/

/-- Any decimal digit (for the adjacency test of a "standalone" digit). -/
def isDigitCh (c : Char) : Bool := 48 ≤ c.toNat && c.toNat ≤ 57

/-- First standalone digit 0-4 of a line: a digit 0-4 neither preceded nor
followed by another digit. The Boolean argument records whether the previous
character was a digit. -/
def firstSA : Bool → List Char → Option Char
  | _, [] => none
  | prevDigit, c :: rest =>
    if isDigit04 c && !prevDigit &&
        !(match rest with | [] => false | r :: _ => isDigitCh r) then some c
    else firstSA (isDigitCh c) rest

/-- Spec wording of the keyword test: the line contains one of the three
tokens, stated via list-infix containment of the lowered line. -/
def specHasToken (l : List Char) : Prop :=
  "score".data <:+: lowerStr l ∨ "final".data <:+: lowerStr l ∨
    "result".data <:+: lowerStr l

instance specHasTokenDec (l : List Char) : Decidable (specHasToken l) := by
  unfold specHasToken
  infer_instance

/-- The fallback extraction exactly as the spec states it (with "standalone
digit"): reverse-order scan, keyword-bearing lines, first standalone digit
0-4 wins, default 0. -/
def specC3Score (narr : String) : Nat :=
  ((splitNL narr.data).reverse.findSome? fun l =>
    if specHasToken l then (firstSA false l).map digitVal else none).getD 0

/-- The fallback extraction as the spec states it but with "standalone
digit" weakened to "digit" (first character in 0-4), which is what the code's
`re.search(r"[0-4]", line)` implements. -/
def specC3AmendedScore (narr : String) : Nat :=
  ((splitNL narr.data).reverse.findSome? fun l =>
    if specHasToken l then (List.find? isDigit04 l).map digitVal else none).getD 0

example : parseScore "FINAL SCORE: 3".data = 3 := by decide
example : parseScore "the final score is 3 out of 4".data = 3 := by decide
example : parseScore "score 2024".data = 2 := by decide
example : parseNarrative "hello\n" = (0, "hello") := by decide
example :
    process_and_display (fun _ _ => Except.ok "x") "abc" "  " =
      (0, "Please provide both an invoice text and SMS text.") := by decide
example : (scoreFieldSets ⟨some 500, some 20240501, some "Jane Doe", []⟩
    ⟨some 500, some 20240501, some " jane  DOE ", []⟩).score = 3 := by decide

example : fsPat = "FINAL SCORE:".data := by decide

/-! Whitespace character facts. -/

theorem isWS_cases (c : Char) (h : isWS c = true) :
    c = ' ' ∨ c = '\t' ∨ c = '\n' ∨ c = '\r' ∨ c = '\x0b' ∨ c = '\x0c' := by
  simpa [isWS, or_assoc] using h

theorem lowerChar_ws (c : Char) (h : isWS c = true) : lowerChar c = c := by
  rcases isWS_cases c h with rfl | rfl | rfl | rfl | rfl | rfl <;> decide

theorem ciEq_F_ws (c : Char) (h : isWS c = true) : ciEq 'F' c = false := by
  rcases isWS_cases c h with rfl | rfl | rfl | rfl | rfl | rfl <;> decide

theorem ciEq_colon_ws (c : Char) (h : isWS c = true) : ciEq ':' c = false := by
  rcases isWS_cases c h with rfl | rfl | rfl | rfl | rfl | rfl <;> decide

theorem ws_not_digit (c : Char) (h : isWS c = true) : isDigit04 c = false := by
  rcases isWS_cases c h with rfl | rfl | rfl | rfl | rfl | rfl <;> decide

/-! Behaviour of the case-insensitive literal matcher under whitespace
padding. -/

theorem dropCI_ws_none :
    ∀ (w ps : List Char), ':' ∈ ps → (∀ c ∈ w, isWS c = true) →
      dropCI ps w = none := by
  intro w
  induction w with
  | nil =>
    intro ps hc _
    cases ps with
    | nil => simp at hc
    | cons p ps' => rfl
  | cons d w' ih =>
    intro ps hc hw
    cases ps with
    | nil => simp at hc
    | cons p ps' =>
      simp only [dropCI]
      by_cases hcd : ciEq p d = true
      · have hp : p ≠ ':' := by
          intro hp
          rw [hp, ciEq_colon_ws d (hw d (by simp))] at hcd
          exact Bool.false_ne_true hcd
        have hc' : ':' ∈ ps' := by
          rcases List.mem_cons.mp hc with h | h
          · exact absurd h.symm hp
          · exact h
        rw [if_pos hcd]
        exact ih ps' hc' fun c hcw => hw c (List.mem_cons_of_mem d hcw)
      · rw [if_neg hcd]

theorem dropCI_some_append :
    ∀ (ps xs r w : List Char), dropCI ps xs = some r →
      dropCI ps (xs ++ w) = some (r ++ w) := by
  intro ps
  induction ps with
  | nil =>
    intro xs r w h
    simp only [dropCI, Option.some.injEq] at h
    subst h
    rfl
  | cons p ps' ih =>
    intro xs r w h
    cases xs with
    | nil => exact absurd h (by simp [dropCI])
    | cons x xs' =>
      simp only [dropCI, List.cons_append] at h ⊢
      by_cases hcx : ciEq p x = true
      · rw [if_pos hcx] at h ⊢
        exact ih xs' r w h
      · rw [if_neg hcx] at h
        exact absurd h (by simp)

theorem suffix_tail_fs (p : Char) (ps l : List Char) (h : (p :: ps) <:+ l) :
    ps <:+ l := by
  obtain ⟨t, ht⟩ := h
  exact ⟨t ++ [p], by simpa using ht⟩

theorem colon_mem_suffix (ps : List Char) (h : ps <:+ fsPat) (hne : ps ≠ []) :
    ':' ∈ ps := by
  obtain ⟨t, ht⟩ := h
  have hrev : fsPat.reverse = ps.reverse ++ t.reverse := by
    rw [← ht]
    exact List.reverse_append t ps
  obtain ⟨q, qs, hq⟩ : ∃ q qs, ps.reverse = q :: qs := by
    cases hps : ps.reverse with
    | nil => exact absurd (List.reverse_eq_nil_iff.mp hps) hne
    | cons q qs => exact ⟨q, qs, rfl⟩
  have hfs : fsPat.reverse = ':' :: [ 'E', 'R', 'O', 'C', 'S', ' ', 'L', 'A', 'N', 'I', 'F'] := by
    decide
  rw [hfs, hq] at hrev
  have hqc : q = ':' := (List.cons.injEq _ _ _ _ ▸ hrev).1.symm
  have : q ∈ ps.reverse := by
    rw [hq]
    exact List.mem_cons_self q qs
  rw [hqc] at this
  exact List.mem_reverse.mp this

theorem dropCI_none_append :
    ∀ (xs ps w : List Char), ps <:+ fsPat → (∀ c ∈ w, isWS c = true) →
      dropCI ps xs = none → dropCI ps (xs ++ w) = none := by
  intro xs
  induction xs with
  | nil =>
    intro ps w hsuf hw h
    cases ps with
    | nil => exact absurd h (by simp [dropCI])
    | cons p ps' =>
      have : ':' ∈ p :: ps' := colon_mem_suffix (p :: ps') hsuf (by simp)
      simpa using dropCI_ws_none w (p :: ps') this hw
  | cons x xs' ih =>
    intro ps w hsuf hw h
    cases ps with
    | nil => exact absurd h (by simp [dropCI])
    | cons p ps' =>
      simp only [dropCI, List.cons_append] at h ⊢
      by_cases hcx : ciEq p x = true
      · rw [if_pos hcx] at h ⊢
        exact ih ps' w (suffix_tail_fs p ps' fsPat hsuf) hw h
      · rw [if_neg hcx]

theorem fs_at_append (xs w : List Char) (hw : ∀ c ∈ w, isWS c = true) :
    finalScoreAt (xs ++ w) = finalScoreAt xs := by
  unfold finalScoreAt
  cases h1 : dropCI fsPat xs with
  | none =>
    rw [dropCI_none_append xs fsPat w ⟨[], rfl⟩ hw h1]
  | some r =>
    rw [dropCI_some_append fsPat xs r w h1]
    cases h2 : List.dropWhile isWS r with
    | nil =>
      have hrw : List.dropWhile isWS (r ++ w) = [] := by
        rw [List.dropWhile_append]
        simp [h2, List.dropWhile_eq_nil_iff.mpr hw]
      simp [hrw, h2]
    | cons a as =>
      have hrw : List.dropWhile isWS (r ++ w) = a :: (as ++ w) := by
        rw [List.dropWhile_append]
        simp [h2]
      simp [hrw, h2]

theorem fs_at_ws_head (c : Char) (cs : List Char) (h : isWS c = true) :
    finalScoreAt (c :: cs) = none := by
  have hF : ciEq 'F' c = false := ciEq_F_ws c h
  simp [finalScoreAt, fsPat, dropCI, hF]

theorem searchFS_cons_none (c : Char) (cs : List Char)
    (h : finalScoreAt (c :: cs) = none) : searchFS (c :: cs) = searchFS cs := by
  simp [searchFS, h]

theorem searchFS_cons_some (c : Char) (cs : List Char) (d : Char)
    (h : finalScoreAt (c :: cs) = some d) : searchFS (c :: cs) = some d := by
  simp [searchFS, h]

theorem searchFS_ws_front :
    ∀ (w cs : List Char), (∀ c ∈ w, isWS c = true) →
      searchFS (w ++ cs) = searchFS cs := by
  intro w
  induction w with
  | nil => intro cs _; rfl
  | cons d w' ih =>
    intro cs hw
    have hd : isWS d = true := hw d (by simp)
    rw [List.cons_append,
      searchFS_cons_none d (w' ++ cs) (fs_at_ws_head d (w' ++ cs) hd)]
    exact ih cs fun c hcw => hw c (List.mem_cons_of_mem d hcw)

theorem searchFS_all_ws (w : List Char) (hw : ∀ c ∈ w, isWS c = true) :
    searchFS w = none := by
  have h := searchFS_ws_front w [] hw
  simpa using h

theorem searchFS_append_ws :
    ∀ (cs w : List Char), (∀ c ∈ w, isWS c = true) →
      searchFS (cs ++ w) = searchFS cs := by
  intro cs
  induction cs with
  | nil =>
    intro w hw
    simpa using searchFS_all_ws w hw
  | cons c cs' ih =>
    intro w hw
    have hfs := fs_at_append (c :: cs') w hw
    rw [List.cons_append] at hfs ⊢
    cases h : finalScoreAt (c :: cs') with
    | some d =>
      rw [searchFS_cons_some c cs' d h,
        searchFS_cons_some c (cs' ++ w) d (by rw [hfs, h])]
    | none =>
      rw [searchFS_cons_none c cs' h,
        searchFS_cons_none c (cs' ++ w) (by rw [hfs, h])]
      exact ih w hw

/-! Decomposition of `pyStrip`: the original text is the stripped text with
all-whitespace padding on both sides. -/

theorem strip_decomp (cs : List Char) :
    ∃ w₁ w₂, (∀ c ∈ w₁, isWS c = true) ∧ (∀ c ∈ w₂, isWS c = true) ∧
      cs = w₁ ++ (pyStrip cs ++ w₂) := by
  refine ⟨List.takeWhile isWS cs,
    (List.takeWhile isWS (List.dropWhile isWS cs).reverse).reverse,
    fun c hc => List.mem_takeWhile_imp hc,
    fun c hc => List.mem_takeWhile_imp (List.mem_reverse.mp hc), ?_⟩
  have h1 : cs = List.takeWhile isWS cs ++ List.dropWhile isWS cs :=
    (List.takeWhile_append_dropWhile isWS cs).symm
  have h2 : List.dropWhile isWS cs =
      pyStrip cs ++ (List.takeWhile isWS (List.dropWhile isWS cs).reverse).reverse := by
    unfold pyStrip
    have h3 : (List.dropWhile isWS cs).reverse =
        List.takeWhile isWS (List.dropWhile isWS cs).reverse ++
          List.dropWhile isWS (List.dropWhile isWS cs).reverse :=
      (List.takeWhile_append_dropWhile isWS (List.dropWhile isWS cs).reverse).symm
    calc List.dropWhile isWS cs
        = (List.dropWhile isWS cs).reverse.reverse := (List.reverse_reverse _).symm
      _ = (List.takeWhile isWS (List.dropWhile isWS cs).reverse ++
            List.dropWhile isWS (List.dropWhile isWS cs).reverse).reverse := by
          rw [← h3]
      _ = _ := by
          rw [List.reverse_append]
  conv_lhs => rw [h1, h2]

theorem searchFS_strip (cs : List Char) : searchFS (pyStrip cs) = searchFS cs := by
  obtain ⟨w₁, w₂, h1, h2, hdec⟩ := strip_decomp cs
  conv_rhs => rw [hdec]
  rw [searchFS_ws_front w₁ (pyStrip cs ++ w₂) h1, searchFS_append_ws (pyStrip cs) w₂ h2]

/-! Structure of `splitNL` under append, via the `glue` combinator: the last
line of the left part joins the first line of the right part. -/

theorem splitNL_ne (cs : List Char) : splitNL cs ≠ [] := by
  induction cs with
  | nil => simp [splitNL]
  | cons c cs ih =>
    by_cases h : c = '\n'
    · simp [splitNL, h]
    · simp only [splitNL, if_neg h]
      cases hs : splitNL cs with
      | nil => simp
      | cons l ls => simp

theorem splitNL_cons_nl (cs : List Char) : splitNL ('\n' :: cs) = [] :: splitNL cs := by
  simp [splitNL]

theorem splitNL_cons_char (c : Char) (cs : List Char) (h : c ≠ '\n')
    (l : List Char) (ls : List (List Char)) (hs : splitNL cs = l :: ls) :
    splitNL (c :: cs) = (c :: l) :: ls := by
  simp [splitNL, h, hs]

theorem splitNL_append :
    ∀ (a b : List Char), splitNL (a ++ b) = glue (splitNL a) (splitNL b) := by
  intro a
  induction a with
  | nil =>
    intro b
    show splitNL b = glue [[]] (splitNL b)
    cases hb : splitNL b with
    | nil => exact absurd hb (splitNL_ne b)
    | cons hb' tb => simp [glue]
  | cons c a' ih =>
    intro b
    by_cases h : c = '\n'
    · subst h
      rw [List.cons_append, splitNL_cons_nl (a' ++ b), splitNL_cons_nl a', ih b]
      cases ha : splitNL a' with
      | nil => exact absurd ha (splitNL_ne a')
      | cons l ls => simp [glue]
    · cases ha : splitNL a' with
      | nil => exact absurd ha (splitNL_ne a')
      | cons l ls =>
        have hstep : splitNL (c :: a') = (c :: l) :: ls :=
          splitNL_cons_char c a' h l ls ha
        cases ls with
        | nil =>
          cases hb : splitNL b with
          | nil => exact absurd hb (splitNL_ne b)
          | cons hb' tb =>
            have hab : splitNL (a' ++ b) = (l ++ hb') :: tb := by
              rw [ih b, ha, hb]
              simp [glue]
            have hfull : splitNL (c :: (a' ++ b)) = (c :: (l ++ hb')) :: tb :=
              splitNL_cons_char c (a' ++ b) h (l ++ hb') tb hab
            rw [List.cons_append, hfull, hstep]
            simp [glue]
        | cons l2 ls2 =>
          have hab : splitNL (a' ++ b) = l :: glue (l2 :: ls2) (splitNL b) := by
            rw [ih b, ha]
            simp [glue]
          have hfull : splitNL (c :: (a' ++ b)) =
              (c :: l) :: glue (l2 :: ls2) (splitNL b) :=
            splitNL_cons_char c (a' ++ b) h l (glue (l2 :: ls2) (splitNL b)) hab
          rw [List.cons_append, hfull, hstep]
          simp [glue]

/-! `List.findSome?` under append and on singletons. -/

theorem findSome?_app {α : Type} {β : Type} (f : α → Option β) :
    ∀ (xs ys : List α),
      List.findSome? f (xs ++ ys) =
        match List.findSome? f xs with
        | some v => some v
        | none => List.findSome? f ys := by
  intro xs ys
  induction xs with
  | nil => simp
  | cons x xs ih =>
    rw [List.cons_append, List.findSome?_cons, List.findSome?_cons]
    cases hfx : f x with
    | some v => rfl
    | none => simpa using ih

theorem findSome?_single {α : Type} {β : Type} (f : α → Option β) (x : α) :
    List.findSome? f [x] = f x := by
  rw [List.findSome?_cons]
  cases hfx : f x <;> simp

/-! Whitespace padding does not change a line's keyword test nor its first
digit, and all-whitespace lines contribute nothing to the fallback scan. -/

theorem matchesAt_ws_head (q : Char) (qs : List Char) (c : Char) (cs : List Char)
    (hq : isWS q = false) (hc : isWS c = true) :
    matchesAt (q :: qs) (c :: cs) = false := by
  have hqc : q ≠ c := by
    intro h
    rw [h, hc] at hq
    simp at hq
  simp [matchesAt, hqc]

theorem containsSub_all_ws (p : List Char) (hne : p ≠ [])
    (hp : ∀ c ∈ p, isWS c = false) :
    ∀ (s : List Char), (∀ c ∈ s, isWS c = true) → containsSub p s = false := by
  intro s
  induction s with
  | nil =>
    intro _
    cases p with
    | nil => exact absurd rfl hne
    | cons q qs => rfl
  | cons c cs ih =>
    intro hs
    cases p with
    | nil => exact absurd rfl hne
    | cons q qs =>
      simp only [containsSub]
      rw [matchesAt_ws_head q qs c cs (hp q (by simp)) (hs c (by simp))]
      simpa using ih fun x hx => hs x (List.mem_cons_of_mem c hx)

theorem containsSub_ws_front (p : List Char) (hne : p ≠ [])
    (hp : ∀ c ∈ p, isWS c = false) :
    ∀ (w s : List Char), (∀ c ∈ w, isWS c = true) →
      containsSub p (w ++ s) = containsSub p s := by
  intro w
  induction w with
  | nil => intro s _; rfl
  | cons d w' ih =>
    intro s hw
    cases p with
    | nil => exact absurd rfl hne
    | cons q qs =>
      simp only [List.cons_append, containsSub, List.append_eq]
      rw [matchesAt_ws_head q qs d (w' ++ s) (hp q (by simp)) (hw d (by simp))]
      simpa using ih s fun x hx => hw x (List.mem_cons_of_mem d hx)

theorem matchesAt_append_ws :
    ∀ (p x w : List Char), (∀ c ∈ p, isWS c = false) →
      (∀ c ∈ w, isWS c = true) → matchesAt p (x ++ w) = matchesAt p x := by
  intro p
  induction p with
  | nil => intro x w _ _; rfl
  | cons q p' ih =>
    intro x w hp hw
    cases x with
    | nil =>
      cases w with
      | nil => rfl
      | cons d w' =>
        rw [List.nil_append,
          matchesAt_ws_head q p' d w' (hp q (by simp)) (hw d (by simp))]
        rfl
    | cons a x' =>
      simp only [List.cons_append, matchesAt, List.append_eq]
      rw [ih x' w (fun c hc => hp c (List.mem_cons_of_mem q hc)) hw]

theorem containsSub_append_ws (p : List Char) (hne : p ≠ [])
    (hp : ∀ c ∈ p, isWS c = false) :
    ∀ (s w : List Char), (∀ c ∈ w, isWS c = true) →
      containsSub p (s ++ w) = containsSub p s := by
  intro s
  induction s with
  | nil =>
    intro w hw
    rw [List.nil_append, containsSub_all_ws p hne hp w hw]
    cases p with
    | nil => exact absurd rfl hne
    | cons q qs => rfl
  | cons c s' ih =>
    intro w hw
    simp only [List.cons_append, containsSub, List.append_eq]
    rw [show (matchesAt p (c :: (s' ++ w)) : Bool) = matchesAt p ((c :: s') ++ w) from rfl,
      matchesAt_append_ws p (c :: s') w hp hw, ih w hw]

theorem lowerStr_ws (w : List Char) (hw : ∀ c ∈ w, isWS c = true) :
    ∀ c ∈ lowerStr w, isWS c = true := by
  intro c hc
  obtain ⟨c', hc', rfl⟩ := List.mem_map.mp hc
  rw [lowerChar_ws c' (hw c' hc')]
  exact hw c' hc'

theorem hasKeyword_append_ws (l w : List Char) (hw : ∀ c ∈ w, isWS c = true) :
    hasKeyword (l ++ w) = hasKeyword l := by
  unfold hasKeyword
  unfold lowerStr
  rw [List.map_append]
  have hws : ∀ c ∈ List.map lowerChar w, isWS c = true := lowerStr_ws w hw
  rw [containsSub_append_ws "score".data (by decide) (by decide) (List.map lowerChar l) (List.map lowerChar w) hws,
    containsSub_append_ws "final".data (by decide) (by decide) (List.map lowerChar l) (List.map lowerChar w) hws,
    containsSub_append_ws "result".data (by decide) (by decide) (List.map lowerChar l) (List.map lowerChar w) hws]

theorem hasKeyword_ws_front (w l : List Char) (hw : ∀ c ∈ w, isWS c = true) :
    hasKeyword (w ++ l) = hasKeyword l := by
  unfold hasKeyword
  unfold lowerStr
  rw [List.map_append]
  have hws : ∀ c ∈ List.map lowerChar w, isWS c = true := lowerStr_ws w hw
  rw [containsSub_ws_front "score".data (by decide) (by decide) (List.map lowerChar w) (List.map lowerChar l) hws,
    containsSub_ws_front "final".data (by decide) (by decide) (List.map lowerChar w) (List.map lowerChar l) hws,
    containsSub_ws_front "result".data (by decide) (by decide) (List.map lowerChar w) (List.map lowerChar l) hws]

theorem find?_ws_none (w : List Char) (hw : ∀ c ∈ w, isWS c = true) :
    List.find? isDigit04 w = none :=
  List.find?_eq_none.mpr fun c hc => by simp [ws_not_digit c (hw c hc)]

theorem find?_app :
    ∀ (xs ys : List Char),
      List.find? isDigit04 (xs ++ ys) =
        match List.find? isDigit04 xs with
        | some c => some c
        | none => List.find? isDigit04 ys := by
  intro xs ys
  induction xs with
  | nil => simp
  | cons x xs ih =>
    rw [List.cons_append, List.find?_cons, List.find?_cons]
    cases hx : isDigit04 x with
    | true => simp
    | false => simpa using ih

theorem lineScore_append_ws (l w : List Char) (hw : ∀ c ∈ w, isWS c = true) :
    lineScore (l ++ w) = lineScore l := by
  unfold lineScore
  rw [hasKeyword_append_ws l w hw]
  by_cases hk : hasKeyword l = true
  · rw [if_pos hk, if_pos hk, find?_app l w]
    cases hf : List.find? isDigit04 l <;> simp [find?_ws_none w hw]
  · rw [if_neg hk, if_neg hk]

theorem find?_ws_front (w l : List Char) (hw : ∀ c ∈ w, isWS c = true) :
    List.find? isDigit04 (w ++ l) = List.find? isDigit04 l := by
  induction w with
  | nil => rfl
  | cons d w' ih =>
    rw [List.cons_append, List.find?_cons, ws_not_digit d (hw d (by simp))]
    exact ih fun c hc => hw c (List.mem_cons_of_mem d hc)

theorem lineScore_ws_front (w l : List Char) (hw : ∀ c ∈ w, isWS c = true) :
    lineScore (w ++ l) = lineScore l := by
  unfold lineScore
  rw [hasKeyword_ws_front w l hw, find?_ws_front w l hw]

theorem lineScore_ws_none (l : List Char) (hl : ∀ c ∈ l, isWS c = true) :
    lineScore l = none := by
  unfold lineScore hasKeyword
  have hws : ∀ c ∈ lowerStr l, isWS c = true := lowerStr_ws l hl
  rw [containsSub_all_ws "score".data (by decide) (by decide) (lowerStr l) hws,
    containsSub_all_ws "final".data (by decide) (by decide) (lowerStr l) hws,
    containsSub_all_ws "result".data (by decide) (by decide) (lowerStr l) hws]
  rfl

theorem splitNL_ws_lines :
    ∀ (w : List Char), (∀ c ∈ w, isWS c = true) →
      ∀ l ∈ splitNL w, ∀ c ∈ l, isWS c = true := by
  intro w
  induction w with
  | nil =>
    intro _ l hl c hc
    simp [splitNL] at hl
    subst hl
    simp at hc
  | cons d w' ih =>
    intro hw l hl c hc
    by_cases hd : d = '\n'
    · subst hd
      rw [splitNL_cons_nl w'] at hl
      rcases List.mem_cons.mp hl with h | h
      · subst h; simp at hc
      · exact ih (fun x hx => hw x (List.mem_cons_of_mem _ hx)) l h c hc
    · cases hs : splitNL w' with
      | nil => exact absurd hs (splitNL_ne w')
      | cons l0 ls =>
        rw [splitNL_cons_char d w' hd l0 ls hs] at hl
        rcases List.mem_cons.mp hl with h | h
        · subst h
          rcases List.mem_cons.mp hc with h2 | h2
          · subst h2; exact hw c (by simp)
          · exact ih (fun x hx => hw x (List.mem_cons_of_mem _ hx)) l0
              (hs ▸ List.mem_cons_self l0 ls) c h2
        · exact ih (fun x hx => hw x (List.mem_cons_of_mem _ hx)) l
            (hs ▸ List.mem_cons_of_mem l0 h) c hc

theorem findSome?_none_of_ws (ls : List (List Char))
    (h : ∀ l ∈ ls, ∀ c ∈ l, isWS c = true) :
    List.findSome? lineScore ls = none := by
  induction ls with
  | nil => rfl
  | cons x xs ih =>
    rw [List.findSome?_cons, lineScore_ws_none x (h x (by simp))]
    exact ih fun l hl => h l (List.mem_cons_of_mem x hl)

theorem glue_scan_right :
    ∀ (A B : List (List Char)), A ≠ [] →
      (∀ l ∈ B, ∀ c ∈ l, isWS c = true) →
      List.findSome? lineScore (glue A B).reverse =
        List.findSome? lineScore A.reverse := by
  intro A
  induction A with
  | nil => intro B hA _; exact absurd rfl hA
  | cons a A' ih =>
    intro B _ hB
    cases A' with
    | nil =>
      cases B with
      | nil => rfl
      | cons hb tb =>
        show List.findSome? lineScore ((a ++ hb) :: tb).reverse =
          List.findSome? lineScore [a].reverse
        rw [List.reverse_cons, findSome?_app lineScore tb.reverse [a ++ hb],
          findSome?_none_of_ws tb.reverse
            (fun l hl => hB l (List.mem_cons_of_mem hb (List.mem_reverse.mp hl)))]
        rw [findSome?_single lineScore (a ++ hb),
          lineScore_append_ws a hb (hB hb (by simp))]
        rw [show ([a] : List (List Char)).reverse = [a] from rfl,
          findSome?_single lineScore a]
    | cons a2 rest =>
      show List.findSome? lineScore (a :: glue (a2 :: rest) B).reverse =
        List.findSome? lineScore (a :: a2 :: rest).reverse
      rw [List.reverse_cons, List.reverse_cons,
        findSome?_app lineScore (glue (a2 :: rest) B).reverse [a],
        findSome?_app lineScore (a2 :: rest).reverse [a],
        ih B (by simp) hB]

theorem glue_scan_left :
    ∀ (W B : List (List Char)), (∀ l ∈ W, ∀ c ∈ l, isWS c = true) →
      List.findSome? lineScore (glue W B).reverse =
        List.findSome? lineScore B.reverse := by
  intro W
  induction W with
  | nil => intro B _; rfl
  | cons w0 W' ih =>
    intro B hW
    cases W' with
    | nil =>
      cases B with
      | nil =>
        show List.findSome? lineScore [w0].reverse = none
        rw [show ([w0] : List (List Char)).reverse = [w0] from rfl,
          findSome?_single lineScore w0, lineScore_ws_none w0 (hW w0 (by simp))]
      | cons hb tb =>
        show List.findSome? lineScore ((w0 ++ hb) :: tb).reverse =
          List.findSome? lineScore (hb :: tb).reverse
        rw [List.reverse_cons, List.reverse_cons,
          findSome?_app lineScore tb.reverse [w0 ++ hb],
          findSome?_app lineScore tb.reverse [hb],
          findSome?_single lineScore (w0 ++ hb), findSome?_single lineScore hb,
          lineScore_ws_front w0 hb (hW w0 (by simp))]
    | cons w1 rest =>
      show List.findSome? lineScore (w0 :: glue (w1 :: rest) B).reverse =
        List.findSome? lineScore B.reverse
      rw [List.reverse_cons,
        findSome?_app lineScore (glue (w1 :: rest) B).reverse [w0],
        ih B (fun l hl => hW l (List.mem_cons_of_mem w0 hl)),
        findSome?_single lineScore w0, lineScore_ws_none w0 (hW w0 (by simp))]
      cases hfs : List.findSome? lineScore B.reverse <;> rfl

theorem scan_strip (cs : List Char) :
    List.findSome? lineScore (splitNL (pyStrip cs)).reverse =
      List.findSome? lineScore (splitNL cs).reverse := by
  obtain ⟨w₁, w₂, h1, h2, hdec⟩ := strip_decomp cs
  conv_rhs => rw [hdec]
  rw [splitNL_append w₁ (pyStrip cs ++ w₂),
    glue_scan_left (splitNL w₁) (splitNL (pyStrip cs ++ w₂)) (splitNL_ws_lines w₁ h1),
    splitNL_append (pyStrip cs) w₂,
    glue_scan_right (splitNL (pyStrip cs)) (splitNL w₂) (splitNL_ne (pyStrip cs))
      (splitNL_ws_lines w₂ h2)]

/-- Stripping the narrative does not change the extracted score: the score
computed by app.py lines 91-105 on `resp.text.strip()` equals the score the
same extraction would compute on the raw response text. -/
theorem parseScore_strip (cs : List Char) : parseScore (pyStrip cs) = parseScore cs := by
  cases h : searchFS cs with
  | some d =>
    have h2 : searchFS (pyStrip cs) = some d := by rw [searchFS_strip cs, h]
    simp [parseScore, h, h2]
  | none =>
    have h2 : searchFS (pyStrip cs) = none := by rw [searchFS_strip cs, h]
    simp [parseScore, h, h2, fallbackScan, scan_strip cs]

/-! Characterization of `searchFS`: absence everywhere, and the leftmost
match. -/

theorem fs_at_nil : finalScoreAt [] = none := rfl

theorem searchFS_none_iff (cs : List Char) :
    searchFS cs = none ↔ ∀ k, finalScoreAt (List.drop k cs) = none := by
  induction cs with
  | nil =>
    constructor
    · intro _ k
      rw [List.drop_nil]
      rfl
    · intro _
      rfl
  | cons c cs' ih =>
    constructor
    · intro h k
      have h1 : finalScoreAt (c :: cs') = none := by
        cases hf : finalScoreAt (c :: cs') with
        | none => rfl
        | some d =>
          rw [searchFS_cons_some c cs' d hf] at h
          exact absurd h (by simp)
      have h2 : searchFS cs' = none := by
        rw [searchFS_cons_none c cs' h1] at h
        exact h
      cases k with
      | zero => simpa using h1
      | succ k' => simpa using (ih.mp h2) k'
    · intro h
      have h1 : finalScoreAt (c :: cs') = none := by simpa using h 0
      rw [searchFS_cons_none c cs' h1]
      exact ih.mpr fun k => by simpa using h (k + 1)

theorem searchFS_leftmost (cs : List Char) :
    ∀ (k : Nat) (c : Char), finalScoreAt (List.drop k cs) = some c →
      (∀ j, j < k → finalScoreAt (List.drop j cs) = none) →
      searchFS cs = some c := by
  induction cs with
  | nil =>
    intro k c h _
    rw [List.drop_nil, fs_at_nil] at h
    exact Option.noConfusion h
  | cons a cs' ih =>
    intro k c h hmin
    cases k with
    | zero =>
      rw [List.drop_zero] at h
      exact searchFS_cons_some a cs' c h
    | succ k' =>
      have h0 : finalScoreAt (a :: cs') = none := by
        simpa using hmin 0 (Nat.succ_pos k')
      rw [searchFS_cons_none a cs' h0]
      refine ih k' c (by simpa using h) fun j hj => ?_
      simpa using hmin (j + 1) (Nat.succ_lt_succ hj)

/-! Every extracted score is a digit 0-4, hence at most 4. -/

theorem fs_at_digit (cs : List Char) (c : Char) (h : finalScoreAt cs = some c) :
    isDigit04 c = true := by
  unfold finalScoreAt at h
  cases h1 : dropCI fsPat cs with
  | none =>
    simp only [h1] at h
    exact Option.noConfusion h
  | some r =>
    simp only [h1] at h
    cases h2 : List.dropWhile isWS r with
    | nil =>
      simp only [h2] at h
      exact Option.noConfusion h
    | cons a as =>
      simp only [h2] at h
      by_cases hd : isDigit04 a = true
      · rw [if_pos hd] at h
        cases h
        exact hd
      · rw [if_neg hd] at h
        exact Option.noConfusion h

theorem searchFS_digit (cs : List Char) :
    ∀ (c : Char), searchFS cs = some c → isDigit04 c = true := by
  induction cs with
  | nil => intro c h; exact Option.noConfusion h
  | cons a cs' ih =>
    intro c h
    cases hf : finalScoreAt (a :: cs') with
    | some d =>
      rw [searchFS_cons_some a cs' d hf] at h
      cases h
      exact fs_at_digit (a :: cs') c hf
    | none =>
      rw [searchFS_cons_none a cs' hf] at h
      exact ih c h

theorem digitVal_le (c : Char) (h : isDigit04 c = true) : digitVal c ≤ 4 := by
  unfold isDigit04 at h
  unfold digitVal
  simp only [Bool.and_eq_true, decide_eq_true_eq] at h
  omega

theorem lineScore_le (l : List Char) (n : Nat) (h : lineScore l = some n) :
    n ≤ 4 := by
  unfold lineScore at h
  by_cases hk : hasKeyword l = true
  · rw [if_pos hk] at h
    cases hf : List.find? isDigit04 l with
    | none =>
      rw [hf] at h
      exact Option.noConfusion h
    | some c =>
      rw [hf] at h
      simp only [Option.map_some', Option.some.injEq] at h
      subst h
      exact digitVal_le c (List.find?_some hf)
  · rw [if_neg hk] at h
    exact Option.noConfusion h

theorem findSome?_lineScore_le (ls : List (List Char)) :
    ∀ (n : Nat), List.findSome? lineScore ls = some n → n ≤ 4 := by
  induction ls with
  | nil => intro n h; exact Option.noConfusion h
  | cons x xs ih =>
    intro n h
    rw [List.findSome?_cons] at h
    cases hx : lineScore x with
    | some m =>
      rw [hx] at h
      cases h
      exact lineScore_le x n hx
    | none =>
      rw [hx] at h
      exact ih n h

theorem fallbackScan_le (ls : List (List Char)) : fallbackScan ls ≤ 4 := by
  unfold fallbackScan
  cases h : List.findSome? lineScore ls with
  | none => simp
  | some n => simpa using findSome?_lineScore_le ls n h

theorem parseScore_le (cs : List Char) : parseScore cs ≤ 4 := by
  unfold parseScore
  cases h : searchFS cs with
  | none => exact fallbackScan_le (splitNL cs).reverse
  | some c => exact digitVal_le c (searchFS_digit cs c h)

/-! `containsSub` agrees with list-infix containment (Python `in`). -/

theorem matchesAt_iff (p : List Char) :
    ∀ (s : List Char), matchesAt p s = true ↔ p <+: s := by
  induction p with
  | nil =>
    intro s
    constructor
    · intro _
      exact ⟨s, rfl⟩
    · intro _
      rfl
  | cons q p' ih =>
    intro s
    cases s with
    | nil =>
      constructor
      · intro h
        exact absurd h (by simp [matchesAt])
      · rintro ⟨t, ht⟩
        exact List.noConfusion ht
    | cons a s' =>
      simp only [matchesAt, Bool.and_eq_true, beq_iff_eq]
      rw [ih s']
      constructor
      · rintro ⟨rfl, t, rfl⟩
        exact ⟨t, rfl⟩
      · rintro ⟨t, ht⟩
        rw [List.cons_append] at ht
        injection ht with h1 h2
        exact ⟨h1, t, h2⟩

theorem containsSub_iff (p : List Char) :
    ∀ (s : List Char), containsSub p s = true ↔ p <:+: s := by
  intro s
  induction s with
  | nil =>
    constructor
    · intro h
      obtain ⟨t, ht⟩ := (matchesAt_iff p []).mp h
      have hp : p = [] := by
        cases p with
        | nil => rfl
        | cons x xs => exact List.noConfusion ht
      subst hp
      exact ⟨[], [], rfl⟩
    · rintro ⟨u, v, huv⟩
      have hp : p = [] := by
        rcases List.append_eq_nil.mp ((List.append_assoc u p v) ▸ huv) with ⟨-, h2⟩
        exact (List.append_eq_nil.mp h2).1
      subst hp
      rfl
  | cons a s' ih =>
    simp only [containsSub, Bool.or_eq_true]
    rw [matchesAt_iff p (a :: s'), ih]
    constructor
    · rintro (⟨t, ht⟩ | ⟨u, v, huv⟩)
      · exact ⟨[], t, by simpa using ht⟩
      · exact ⟨a :: u, v, by simp only [List.cons_append, huv]⟩
    · rintro ⟨u, v, huv⟩
      cases u with
      | nil =>
        left
        exact ⟨v, by simpa using huv⟩
      | cons b u' =>
        right
        simp only [List.cons_append] at huv
        injection huv with h1 h2
        exact ⟨u', v, h2⟩

/-! Empty-after-strip is exactly all-whitespace. -/

theorem pyStrip_nil_iff (cs : List Char) :
    pyStrip cs = [] ↔ ∀ c ∈ cs, isWS c = true := by
  unfold pyStrip
  constructor
  · intro h
    have h1 : List.dropWhile isWS (List.dropWhile isWS cs).reverse = [] :=
      List.reverse_eq_nil_iff.mp h
    have h3 : ∀ c ∈ List.dropWhile isWS cs, isWS c = true := fun c hc =>
      List.dropWhile_eq_nil_iff.mp h1 c (List.mem_reverse.mpr hc)
    intro c hc
    have hc' : c ∈ List.takeWhile isWS cs ++ List.dropWhile isWS cs := by
      rw [List.takeWhile_append_dropWhile isWS cs]
      exact hc
    rcases List.mem_append.mp hc' with h | h
    · exact List.mem_takeWhile_imp h
    · exact h3 c h
  · intro h
    rw [List.dropWhile_eq_nil_iff.mpr h]
    rfl

/-! Bridging the code's Boolean keyword test with the spec's wording, and
generic `findSome?` congruences. -/

theorem findSome?_ext {α β : Type} (f g : α → Option β) (h : ∀ x, f x = g x) :
    ∀ (ls : List α), List.findSome? f ls = List.findSome? g ls := by
  intro ls
  induction ls with
  | nil => rfl
  | cons x xs ih => rw [List.findSome?_cons, List.findSome?_cons, h x, ih]

theorem findSome?_none_all {α β : Type} (f : α → Option β) :
    ∀ (ls : List α), (∀ x ∈ ls, f x = none) → List.findSome? f ls = none := by
  intro ls
  induction ls with
  | nil => intro _; rfl
  | cons x xs ih =>
    intro h
    rw [List.findSome?_cons, h x (by simp)]
    exact ih fun y hy => h y (List.mem_cons_of_mem x hy)

theorem hasKeyword_iff_specToken (l : List Char) :
    hasKeyword l = true ↔ specHasToken l := by
  unfold hasKeyword specHasToken
  rw [Bool.or_eq_true, Bool.or_eq_true,
    containsSub_iff "score".data (lowerStr l),
    containsSub_iff "final".data (lowerStr l),
    containsSub_iff "result".data (lowerStr l), or_assoc]

theorem lineScore_eq_spec (l : List Char) :
    lineScore l =
      if specHasToken l then (List.find? isDigit04 l).map digitVal else none := by
  unfold lineScore
  by_cases h : specHasToken l
  · rw [if_pos h, if_pos ((hasKeyword_iff_specToken l).mpr h)]
  · rw [if_neg h, if_neg fun hk => h ((hasKeyword_iff_specToken l).mp hk)]

/-! The ten claims. -/

/-- Claim C1: the Scoring Rule Engine's score assignment follows the strict
ordered tier table: for every pair of FieldSets the score is 0 when
amount_match is false; 1 when only the amount matches; 2 when the amount and
exactly one of date/name match; 3 when amount, date and name match but no
identifier overlaps; and 4 when all four predicates hold.  (The engine is
modelled from the spec: in src/app.py the rubric exists only as the prompt
text of lines 42-49.) -/
theorem C1_scoring_rule_tiers (invoice sms : FieldSet) :
    ((scoreFieldSets invoice sms).amount_match = false →
      (scoreFieldSets invoice sms).score = 0) ∧
    ((scoreFieldSets invoice sms).amount_match = true →
      (scoreFieldSets invoice sms).date_match = false →
      (scoreFieldSets invoice sms).name_match = false →
      (scoreFieldSets invoice sms).score = 1) ∧
    ((scoreFieldSets invoice sms).amount_match = true →
      (scoreFieldSets invoice sms).date_match ≠ (scoreFieldSets invoice sms).name_match →
      (scoreFieldSets invoice sms).score = 2) ∧
    ((scoreFieldSets invoice sms).amount_match = true →
      (scoreFieldSets invoice sms).date_match = true →
      (scoreFieldSets invoice sms).name_match = true →
      (scoreFieldSets invoice sms).identifier_match = false →
      (scoreFieldSets invoice sms).score = 3) ∧
    ((scoreFieldSets invoice sms).amount_match = true →
      (scoreFieldSets invoice sms).date_match = true →
      (scoreFieldSets invoice sms).name_match = true →
      (scoreFieldSets invoice sms).identifier_match = true →
      (scoreFieldSets invoice sms).score = 4) := by
  unfold scoreFieldSets
  dsimp only
  generalize amountMatch invoice sms = a
  generalize dateMatch invoice sms = d
  generalize nameMatch invoice sms = n
  generalize identifierMatch invoice sms = i
  cases a <;> cases d <;> cases n <;> cases i <;> simp [ruleScore]

/-- Witness for C1 at the spec's §8 scenario: amounts 500 = 500, same day,
names equal up to case and whitespace, no identifier overlap — score 3. -/
theorem C1_scoring_rule_tiers_witness :
    (scoreFieldSets ⟨some 500, some 20240501, some "Jane Doe", ["INV123"]⟩
      ⟨some 500, some 20240501, some " jane  DOE ", []⟩).score = 3 :=
  (C1_scoring_rule_tiers ⟨some 500, some 20240501, some "Jane Doe", ["INV123"]⟩
    ⟨some 500, some 20240501, some " jane  DOE ", []⟩).2.2.2.1
    (by decide) (by decide) (by decide) (by decide)

/-- Claim C2: primary extraction — for every narrative containing an
occurrence of the (case-insensitive) pattern `FINAL SCORE:` followed by a
digit 0-4, the parser returns the digit of the leftmost such occurrence
(`re.search` returns the leftmost match); the fallback is not consulted.
The occurrence at position `k` of the narrative is expressed by
`finalScoreAt` on the `k`-th suffix, with `k` minimal. -/
theorem C2_primary_extraction (narr : String) (k : Nat) (c : Char)
    (h : finalScoreAt (List.drop k narr.data) = some c)
    (hmin : ∀ j, j < k → finalScoreAt (List.drop j narr.data) = none) :
    (parseNarrative narr).1 = digitVal c := by
  have hs : searchFS narr.data = some c := searchFS_leftmost narr.data k c h hmin
  have hs2 : searchFS (pyStrip narr.data) = some c := by
    rw [searchFS_strip narr.data]
    exact hs
  show parseScore (pyStrip narr.data) = digitVal c
  simp [parseScore, hs2]

/-- Witness for C2: the narrative "FINAL SCORE: 3" parses to score 3. -/
theorem C2_primary_extraction_witness :
    (parseNarrative "FINAL SCORE: 3").1 = digitVal '3' ∧ digitVal '3' = 3 :=
  ⟨C2_primary_extraction "FINAL SCORE: 3" 0 '3' (by decide)
    (fun j hj => absurd hj (Nat.not_lt_zero j)), by decide⟩

/-- Counterexample to claim C3 as stated: the spec says the fallback takes
the first *standalone* digit 0-4 of a keyword line, but the code's
`re.search(r"[0-4]", line)` takes the first digit 0-4 even inside a longer
number.  On the narrative "score 2024" (no primary pattern) the code returns
2 (the '2' of "2024"), while the spec's standalone reading yields the
default 0. -/
theorem C3_standalone_counterexample :
    searchFS (String.data "score 2024") = none ∧
    (parseNarrative "score 2024").1 = 2 ∧
    specC3Score "score 2024" = 0 := by decide

/-- Claim C3 (amended): with "standalone digit" weakened to "digit", the
fallback is exactly as the spec describes: when the primary pattern is
absent from the narrative, the parser scans the narrative's lines in reverse
order and returns the first digit 0-4 of the first line containing one of
the tokens "score"/"final"/"result" (case-insensitively), the first such
match stopping the scan. -/
theorem C3_fallback_amended (narr : String)
    (h : ∀ k, finalScoreAt (List.drop k narr.data) = none) :
    (parseNarrative narr).1 = specC3AmendedScore narr := by
  have hs : searchFS narr.data = none := (searchFS_none_iff narr.data).mpr h
  calc (parseNarrative narr).1
      = parseScore (pyStrip narr.data) := rfl
    _ = parseScore narr.data := parseScore_strip narr.data
    _ = fallbackScan (splitNL narr.data).reverse := by simp [parseScore, hs]
    _ = specC3AmendedScore narr := by
        unfold fallbackScan specC3AmendedScore
        rw [findSome?_ext lineScore
          (fun l => if specHasToken l then (List.find? isDigit04 l).map digitVal else none)
          lineScore_eq_spec (splitNL narr.data).reverse]

/-- Witness for C3 (amended) at the spec's §8 example: a narrative ending in
the line "Result line: the final score is 3 out of 4" with no "FINAL SCORE:"
token parses to score 3. -/
theorem C3_fallback_amended_witness :
    (parseNarrative "Some analysis\nResult line: the final score is 3 out of 4\n").1 = 3 ∧
    specC3AmendedScore "Some analysis\nResult line: the final score is 3 out of 4\n" = 3 := by
  constructor
  · rw [C3_fallback_amended "Some analysis\nResult line: the final score is 3 out of 4\n"
      ((searchFS_none_iff
        (String.data "Some analysis\nResult line: the final score is 3 out of 4\n")).mp
        (by decide))]
    decide
  · decide

/-- Counterexample to claim C4 as stated: the parser does not return the
narrative verbatim — app.py line 89 strips it (`text = resp.text.strip()`),
so a narrative with a trailing newline comes back without it. -/
theorem C4_verbatim_counterexample :
    (parseNarrative "x\n").2 ≠ "x\n" ∧ (parseNarrative "x\n").2 = "x" := by decide

/-- Claim C4 (amended): for every narrative the parser returns as
`report_text` the narrative with leading and trailing whitespace stripped
and otherwise unmodified — the original narrative is whitespace padding
around the returned report — and this report is the same whichever
extraction path produced the score. -/
theorem C4_report_stripped (narr : String) :
    (∃ w₁ w₂ : List Char,
      narr.data = w₁ ++ ((parseNarrative narr).2.data ++ w₂) ∧
      (∀ c ∈ w₁, isWS c = true) ∧ (∀ c ∈ w₂, isWS c = true)) ∧
    (parseNarrative narr).2 = String.mk (pyStrip narr.data) := by
  constructor
  · obtain ⟨w₁, w₂, h1, h2, hdec⟩ := strip_decomp narr.data
    exact ⟨w₁, w₂, hdec, h1, h2⟩
  · rfl

/-- Counterexample to claim C5 as stated: on a narrative with no
score-bearing lines the parser does return score 0, but `report_text` is the
*stripped* narrative, not the original narrative. -/
theorem C5_default_counterexample :
    searchFS (String.data "hello\n") = none ∧
    (∀ l ∈ splitNL (String.data "hello\n"), lineScore l = none) ∧
    parseNarrative "hello\n" = (0, "hello") ∧ "hello" ≠ "hello\n" := by decide

/-- Claim C5 (amended): for every narrative in which the primary pattern is
absent and no line both carries a keyword token and contains a digit 0-4,
the parser returns score 0 together with the narrative stripped of leading
and trailing whitespace as `report_text` — a recoverable degraded result,
not a failure. -/
theorem C5_default_amended (narr : String)
    (hp : ∀ k, finalScoreAt (List.drop k narr.data) = none)
    (hf : ∀ l ∈ splitNL narr.data, specHasToken l → ∀ c ∈ l, isDigit04 c = false) :
    parseNarrative narr = (0, String.mk (pyStrip narr.data)) := by
  have hs : searchFS narr.data = none := (searchFS_none_iff narr.data).mpr hp
  have h1 : parseScore (pyStrip narr.data) = 0 := by
    rw [parseScore_strip narr.data]
    have hnone : List.findSome? lineScore (splitNL narr.data).reverse = none := by
      refine findSome?_none_all lineScore (splitNL narr.data).reverse fun l hl => ?_
      have hl' : l ∈ splitNL narr.data := List.mem_reverse.mp hl
      unfold lineScore
      by_cases hk : hasKeyword l = true
      · rw [if_pos hk, List.find?_eq_none.mpr fun c hc => by
          simp [hf l hl' ((hasKeyword_iff_specToken l).mp hk) c hc]]
        rfl
      · rw [if_neg hk]
    simp [parseScore, hs, fallbackScan, hnone]
  show (parseScore (pyStrip narr.data), String.mk (pyStrip narr.data)) = _
  rw [h1]

/-- Witness for C5 (amended): a narrative with no score-bearing lines parses
to score 0 with the stripped narrative as the report. -/
theorem C5_default_amended_witness :
    parseNarrative "No numeric signal here.\n" = (0, "No numeric signal here.") :=
  (C5_default_amended "No numeric signal here.\n"
    ((searchFS_none_iff (String.data "No numeric signal here.\n")).mp (by decide))
    (by decide)).trans (by decide)

/-- Claim C6: input validation short-circuit — when either input document is
empty or whitespace-only, the Reconciliation Service returns score 0 with
the explanatory message, and the result does not depend on the external
collaborator at all (the functional statement of "zero calls to the
Extractor Adapter"). -/
theorem C6_validation_short_circuit
    (f g : String → String → Except String String) (invoice_text sms_text : String)
    (h : (∀ c ∈ invoice_text.data, isWS c = true) ∨
      (∀ c ∈ sms_text.data, isWS c = true)) :
    process_and_display f invoice_text sms_text =
      (0, "Please provide both an invoice text and SMS text.") ∧
    process_and_display f invoice_text sms_text =
      process_and_display g invoice_text sms_text := by
  have hc : pyStrip invoice_text.data = [] ∨ pyStrip sms_text.data = [] := by
    rcases h with h | h
    · exact Or.inl ((pyStrip_nil_iff invoice_text.data).mpr h)
    · exact Or.inr ((pyStrip_nil_iff sms_text.data).mpr h)
  constructor
  · unfold process_and_display
    rw [if_pos hc]
  · unfold process_and_display
    rw [if_pos hc, if_pos hc]

/-- Witness for C6: whitespace-only SMS text yields the validation message
under two collaborators with opposite behaviours. -/
theorem C6_validation_short_circuit_witness :
    process_and_display (fun _ _ => Except.ok "ignored narrative") "invoice body" "   " =
      (0, "Please provide both an invoice text and SMS text.") ∧
    process_and_display (fun _ _ => Except.ok "ignored narrative") "invoice body" "   " =
      process_and_display (fun _ _ => Except.error "collaborator down") "invoice body" "   " :=
  C6_validation_short_circuit (fun _ _ => Except.ok "ignored narrative")
    (fun _ _ => Except.error "collaborator down") "invoice body" "   "
    (Or.inr (by decide))

/-- Counterexample to claim C7 as stated: a collaborator failure is not
surfaced as a distinguishable error kind.  The code folds every exception
into `(0, "Error processing: " + str(e))`, a plain string result that can
coincide exactly with a degraded parse-fallback result: a raised exception
"upstream timeout" and a successfully returned narrative that happens to
read "Error processing: upstream timeout" produce identical service
responses. -/
theorem C7_indistinguishable_counterexample :
    process_and_display (fun _ _ => Except.error "upstream timeout")
      "invoice data" "sms data" = (0, "Error processing: upstream timeout") ∧
    process_and_display (fun _ _ => Except.ok "Error processing: upstream timeout")
      "invoice data" "sms data" = (0, "Error processing: upstream timeout") := by decide

/-- Claim C7 (amended): every failure of the external collaborator call is
caught and surfaced as score 0 with the report "Error processing: " followed
by the exception text — a string convention rather than a distinguishable
error kind, so it is not guaranteed distinct from a degraded parse result. -/
theorem C7_error_path_amended (f : String → String → Except String String)
    (invoice_text sms_text e : String)
    (h1 : ¬ ∀ c ∈ invoice_text.data, isWS c = true)
    (h2 : ¬ ∀ c ∈ sms_text.data, isWS c = true)
    (hf : f invoice_text sms_text = Except.error e) :
    process_and_display f invoice_text sms_text = (0, "Error processing: " ++ e) := by
  have hc : ¬ (pyStrip invoice_text.data = [] ∨ pyStrip sms_text.data = []) := by
    rintro (h | h)
    · exact h1 ((pyStrip_nil_iff invoice_text.data).mp h)
    · exact h2 ((pyStrip_nil_iff sms_text.data).mp h)
  unfold process_and_display match_invoice
  rw [if_neg hc, hf]

/-- Witness for C7 (amended): a raised "quota exceeded" exception becomes
score 0 with the "Error processing: quota exceeded" report. -/
theorem C7_error_path_amended_witness :
    process_and_display (fun _ _ => Except.error "quota exceeded") "inv" "sms" =
      (0, "Error processing: quota exceeded") :=
  C7_error_path_amended (fun _ _ => Except.error "quota exceeded") "inv" "sms"
    "quota exceeded" (by decide) (by decide) rfl

/-- Claim C8: totality of the service operation — for every pair of input
documents and every behaviour of the external collaborator (including any
raised exception, modelled by `Except.error`), the operation produces a
response pair whose score is in range; no path crashes (the embedding is a
total function covering the validation, success and exception branches of
app.py lines 109-118). -/
theorem C8_total_response (f : String → String → Except String String)
    (invoice_text sms_text : String) :
    (process_and_display f invoice_text sms_text).1 ≤ 4 := by
  unfold process_and_display
  by_cases hc : pyStrip invoice_text.data = [] ∨ pyStrip sms_text.data = []
  · rw [if_pos hc]
    exact Nat.zero_le 4
  · rw [if_neg hc]
    unfold match_invoice
    cases hg : f invoice_text sms_text with
    | error e => exact Nat.zero_le 4
    | ok t => exact parseScore_le (pyStrip t.data)

/-- Claim C9: range invariant of the Response Parser — for every narrative
whatsoever the returned score lies in [0,4] (the score is a `Nat`, so 0 ≤
score holds by type; the bound 4 is proved across all three extraction
paths). -/
theorem C9_score_range (narr : String) : (parseNarrative narr).1 ≤ 4 :=
  parseScore_le (pyStrip narr.data)

/-- Claim C10: implicit fallback behaviour — a keyword-bearing line with no
digit 0-4 does not stop the reverse scan (the scan result over such a line
equals the scan of the remaining lines), and when no keyword-bearing line
anywhere contains a digit 0-4 the fallback defaults to 0. -/
theorem C10_fallback_continue :
    (∀ (l : List Char) (rest : List (List Char)), hasKeyword l = true →
      (∀ c ∈ l, isDigit04 c = false) →
      fallbackScan (l :: rest) = fallbackScan rest) ∧
    (∀ ls : List (List Char),
      (∀ l ∈ ls, hasKeyword l = true → ∀ c ∈ l, isDigit04 c = false) →
      fallbackScan ls = 0) := by
  have hline : ∀ l : List Char, hasKeyword l = true →
      (∀ c ∈ l, isDigit04 c = false) → lineScore l = none := by
    intro l hk hnd
    unfold lineScore
    rw [if_pos hk, List.find?_eq_none.mpr fun c hc => by simp [hnd c hc]]
    rfl
  constructor
  · intro l rest hk hnd
    unfold fallbackScan
    rw [List.findSome?_cons, hline l hk hnd]
  · intro ls h
    unfold fallbackScan
    rw [findSome?_none_all lineScore ls fun l hl => by
      unfold lineScore
      by_cases hk : hasKeyword l = true
      · rw [if_pos hk, List.find?_eq_none.mpr fun c hc => by simp [h l hl hk c hc]]
        rfl
      · rw [if_neg hk]]
    rfl

/-- Witness for C10: the keyword line "score high" (no digits) is skipped in
favour of the earlier line "final 2", and alone it defaults to 0. -/
theorem C10_fallback_continue_witness :
    fallbackScan [['s', 'c', 'o', 'r', 'e', ' ', 'h', 'i', 'g', 'h'],
        ['f', 'i', 'n', 'a', 'l', ' ', '2']] =
      fallbackScan [['f', 'i', 'n', 'a', 'l', ' ', '2']] ∧
    fallbackScan [['s', 'c', 'o', 'r', 'e', ' ', 'h', 'i', 'g', 'h']] = 0 :=
  ⟨C10_fallback_continue.1 ['s', 'c', 'o', 'r', 'e', ' ', 'h', 'i', 'g', 'h']
      [['f', 'i', 'n', 'a', 'l', ' ', '2']] (by decide) (by decide),
    C10_fallback_continue.2 [['s', 'c', 'o', 'r', 'e', ' ', 'h', 'i', 'g', 'h']]
      (by decide)⟩
